import Mathlib

/-!
Shallow embedding of the editing core of the `pk` editor: the piece-table
buffer (`src/pk-common/src/piece_table.rs`), the motion engine
(`src/pk-common/src/motion.rs`), the line helpers of the client buffer
(`src/pk-client/src/buffer.rs`) and the command parser/executor
(`src/pk-client/src/command.rs`).

Conventions of the embedding:
* Rust `String` text is modelled as `List Char`; indices are character
  offsets (the source uses byte offsets; the two coincide on ASCII input,
  and every concrete input below is ASCII).
* `usize` values are modelled as `Nat`.  Where the source can underflow a
  `usize` subtraction in a way that matters to a claim, the release-mode
  wrapping semantics is modelled explicitly with `usize_sub` (mod `2^64`);
  elsewhere truncated `Nat` subtraction is used.
* A Rust `panic!`, failed `assert!`, out-of-bounds index with visible
  consequences, or `Option::unwrap` failure is modelled by returning
  `none` from an `Option`-valued function.
* `Vec` index updates/insertions/removals are modelled with `List.set`,
  `List.insertIdx` and `List.eraseIdx`.
-/

namespace PK

/-- `Direction` from `pk-common/src/lib.rs`. -/
inductive Direction where
  | Forward
  | Backward
deriving DecidableEq, Repr

/-- `Piece` from `pk-common/src/piece_table.rs`: a half-open range into one
source. -/
structure Piece where
  source : Nat
  start : Nat
  length : Nat
deriving DecidableEq, Repr

instance : Inhabited Piece := ⟨⟨0, 0, 0⟩⟩

/-- `Piece::split` from `pk-common/src/piece_table.rs` (the `assert!(at <=
self.length)` cannot fire at the call sites modelled here; `Nat`
subtraction truncates like the in-bounds `usize` subtraction). -/
def Piece.split (p : Piece) (at_ : Nat) : Piece × Piece :=
  (⟨p.source, p.start, at_⟩, ⟨p.source, p.start + at_, p.length - at_⟩)

/-- `Change` from `pk-common/src/piece_table.rs`. -/
inductive Change where
  | insert (piece_index : Nat) (new : Piece)
  | modify (piece_index : Nat) (old new : Piece)
  | delete (piece_index : Nat) (old : Piece)
deriving DecidableEq, Repr

/-- `Action` from `pk-common/src/piece_table.rs`. -/
structure Action where
  changes : List Change
  id : Nat
deriving DecidableEq, Repr

/-- `PieceTable` from `pk-common/src/piece_table.rs`. -/
structure PieceTable where
  sources : List (List Char)
  pieces : List Piece
  history : List Action
  next_action_id : Nat
deriving DecidableEq, Repr

/-- The text a single piece refers to: `&sources[p.source][p.start ..
p.start+p.length]`. -/
def pieceChars (srcs : List (List Char)) (p : Piece) : List Char :=
  ((srcs.getD p.source []).drop p.start).take p.length

/-- Concatenation of the piece texts, as done by `PieceTable::text`. -/
def textPieces (srcs : List (List Char)) : List Piece → List Char
  | [] => []
  | p :: ps => pieceChars srcs p ++ textPieces srcs ps

/-- Sum of the piece lengths, as done by `PieceTable::len`. -/
def totalLen : List Piece → Nat
  | [] => 0
  | p :: ps => p.length + totalLen ps

namespace PieceTable

/-- `PieceTable::with_text_and_starting_action_id`. -/
def with_text_and_starting_action_id (s : List Char) (start_aid : Nat) : PieceTable :=
  { sources := [s]
    pieces := [⟨0, 0, s.length⟩]
    history := []
    next_action_id := start_aid }

/-- `PieceTable::with_text`. -/
def with_text (s : List Char) : PieceTable :=
  with_text_and_starting_action_id s 1

/-- `PieceTable::text`. -/
def text (pt : PieceTable) : List Char :=
  textPieces pt.sources pt.pieces

/-- `PieceTable::len`. -/
def len (pt : PieceTable) : Nat :=
  totalLen pt.pieces

/-- The invariant the spec states for every table (§3 "piece bounds must
lie within their Source"): every piece names an existing source and stays
inside its bounds.  All tables reachable through the public API satisfy
it. -/
def wf (pt : PieceTable) : Prop :=
  ∀ p ∈ pt.pieces, p.source < pt.sources.length ∧
    p.start + p.length ≤ (pt.sources.getD p.source []).length

instance (pt : PieceTable) : Decidable pt.wf := by
  unfold wf; infer_instance

/-- `PieceTable::enact_change`, acting on the piece list.  The Rust
panics when the recorded index is out of bounds (`Vec::insert` for an
index beyond the length, indexed assignment and `Vec::remove` for an
index at or beyond it); those panics are modelled as `none`. -/
def enact_change (c : Change) (ps : List Piece) : Option (List Piece) :=
  match c with
  | .insert piece_index new =>
    if piece_index ≤ ps.length then some (ps.insertIdx piece_index new) else none
  | .modify piece_index _ new =>
    if piece_index < ps.length then some (ps.set piece_index new) else none
  | .delete piece_index _ =>
    if piece_index < ps.length then some (ps.eraseIdx piece_index) else none

/-- `PieceTable::reverse_change`, acting on the piece list. -/
def reverse_change (c : Change) (ps : List Piece) : List Piece :=
  match c with
  | .insert piece_index _ => ps.eraseIdx piece_index
  | .modify piece_index old _ => ps.set piece_index old
  | .delete piece_index old => ps.insertIdx piece_index old

/-- `PieceTable::apply_action`.  The `panic!("eek")` on a stale action id
is modelled as `none`; a panic raised by `enact_change` on an
out-of-bounds change propagates. -/
def apply_action (pt : PieceTable) (a : Action) : Option PieceTable :=
  if a.id < pt.next_action_id then none
  else
    (a.changes.foldlM (fun ps c => enact_change c ps) pt.pieces).map fun ps =>
      { pt with pieces := ps, next_action_id := a.id + 1 }

/-- `PieceTable::get_changes_from`. -/
def get_changes_from (pt : PieceTable) (id : Nat) : List Action :=
  pt.history.filter (fun a => id ≤ a.id)

/-- `PieceTable::undo`: pop the last action and reverse-apply its changes
in reverse order. -/
def undo (pt : PieceTable) : PieceTable :=
  match pt.history.getLast? with
  | none => pt
  | some action =>
    { pt with
      history := pt.history.dropLast
      pieces := action.changes.reverse.foldl (fun ps c => reverse_change c ps) pt.pieces }

/-- `PieceTable::most_recent_action_id`. -/
def most_recent_action_id (pt : PieceTable) : Nat :=
  match pt.history.getLast? with
  | none => 0
  | some a => a.id

/-- The scan of `PieceTable::insert_raw_piece`: find the first piece `i`
with `ix ≤ index ≤ ix + p.length` (the Rust loop keeps the global offset
`ix`; here the index is made relative by subtracting each skipped piece's
length, which is the same test).  Returns the piece index, the offset of
`index` inside the piece, and the piece. -/
def insert_locate : List Piece → Nat → Option (Nat × Nat × Piece)
  | [], _ => none
  | p :: rest, j =>
    if j ≤ p.length then some (0, j, p)
    else (insert_locate rest (j - p.length)).map fun r => (r.1 + 1, r.2.1, r.2.2)

/-- The piece-list update and recorded changes of
`PieceTable::insert_raw_piece`: insertion at a piece boundary inserts the
new piece adjacent to it (1 change); insertion mid-piece splits the piece
(3 changes).  If no piece contains the index the Rust loop falls through
and records an empty action. -/
def insert_splice (ps : List Piece) (j : Nat) (np : Piece) : List Piece × List Change :=
  match insert_locate ps j with
  | none => (ps, [])
  | some (i, k, p) =>
    if k = 0 then
      (ps.insertIdx i np, [.insert i np])
    else if k = p.length then
      (ps.insertIdx (i + 1) np, [.insert (i + 1) np])
    else
      let lr := p.split k
      (((ps.set i lr.1).insertIdx (i + 1) np).insertIdx (i + 2) lr.2,
       [.modify i p lr.1, .insert (i + 1) np, .insert (i + 2) lr.2])

/-- `PieceTable::insert_raw_piece`.  `Action::new` increments
`next_action_id` before the scan; the action is pushed to the history even
when no piece contained the index. -/
def insert_raw_piece (pt : PieceTable) (index : Nat) (np : Piece) : PieceTable :=
  let aid := pt.next_action_id
  let sc := insert_splice pt.pieces index np
  { pt with
    pieces := sc.1
    history := pt.history ++ [⟨sc.2, aid⟩]
    next_action_id := aid + 1 }

/-- `PieceTable::insert_range`: an empty string returns immediately;
otherwise a fresh source is pushed and a piece covering it is inserted. -/
def insert_range (pt : PieceTable) (s : List Char) (index : Nat) : PieceTable :=
  if s.length = 0 then pt
  else
    let np : Piece := ⟨pt.sources.length, 0, s.length⟩
    insert_raw_piece { pt with sources := pt.sources ++ [s] } index np

/-- Outcome of the scan loop of `PieceTable::delete_range`: either the
early single-piece return (the piece wholly containing the range) or the
collected start piece, end piece and fully-contained middle pieces. -/
inductive DeleteScan where
  | single (i gi : Nat) (p : Piece)
  | scan (sp ep : Option (Nat × Nat)) (mids : List Nat)
deriving DecidableEq, Repr

/-- The scan loop of `PieceTable::delete_range`, piece by piece with
absolute piece index `i` and global offset `gi`. -/
def delete_scan (start e : Nat) : List Piece → Nat → Nat →
    Option (Nat × Nat) → Option (Nat × Nat) → List Nat → DeleteScan
  | [], _, _, sp, ep, mids => .scan sp ep mids
  | p :: rest, i, gi, sp, ep, mids =>
    if start < gi ∧ gi + p.length ≤ e then
      delete_scan start e rest (i + 1) (gi + p.length) sp ep (mids ++ [i])
    else if gi ≤ start ∧ start < gi + p.length then
      if gi ≤ e ∧ e ≤ gi + p.length then .single i gi p
      else delete_scan start e rest (i + 1) (gi + p.length) (some (i, start - gi)) ep mids
    else if gi ≤ e ∧ e < gi + p.length then
      delete_scan start e rest (i + 1) (gi + p.length) sp (some (i, e - gi)) mids
    else
      delete_scan start e rest (i + 1) (gi + p.length) sp ep mids

/-- `PieceTable::delete_range` (deletes `[start, e)`).  The
`assert!(end > start)` and the `unwrap()`s on a missing start/end piece
are modelled as `none`.  In the single-piece case the piece is split into
a kept-left and kept-right part (or only the right part survives); in the
multi-piece case the start and end pieces are trimmed, the middle pieces
are recorded as deletions against the already-modified list and then
filtered out in one batch. -/
def delete_range (pt : PieceTable) (start e : Nat) : Option PieceTable :=
  if ¬ start < e then none
  else
    let aid := pt.next_action_id
    match delete_scan start e pt.pieces 0 0 none none [] with
    | .single i gi p =>
      let left_keep := (p.split (start - gi)).1
      let deleted_right := (p.split (start - gi)).2
      let right_keep := (deleted_right.split (e - (gi + left_keep.length))).2
      let sc : List Piece × List Change :=
        if left_keep.length = 0 then
          (pt.pieces.set i right_keep, [.modify i p right_keep])
        else
          ((pt.pieces.set i left_keep).insertIdx (i + 1) right_keep,
           [.modify i p left_keep, .insert (i + 1) right_keep])
      some { pt with
        pieces := sc.1
        history := pt.history ++ [⟨sc.2, aid⟩]
        next_action_id := aid + 1 }
    | .scan sp ep mids =>
      match sp, ep with
      | some (spi, scut), some (epi, ecut) =>
        let new_start := ((pt.pieces.getD spi default).split scut).1
        let new_end := ((pt.pieces.getD epi default).split ecut).2
        let l2 := (pt.pieces.set spi new_start).set epi new_end
        let changes :=
          [Change.modify spi (pt.pieces.getD spi default) new_start,
           Change.modify epi (pt.pieces.getD epi default) new_end] ++
          mids.map (fun i => Change.delete i (l2.getD i default))
        some { pt with
          pieces := ((l2.enum.filter (fun ip => ¬ mids.contains ip.1)).map (fun ip => ip.2))
          history := pt.history ++ [⟨changes, aid⟩]
          next_action_id := aid + 1 }
      | _, _ => none

/-- One slice `&sources[p.source][p.start+a .. p.start+b]` as pushed by
`PieceTable::copy_range`. -/
def sliceSrc (srcs : List (List Char)) (p : Piece) (a b : Nat) : List Char :=
  ((srcs.getD p.source []).drop (p.start + a)).take (b - a)

/-- The loop of `PieceTable::copy_range`, with global offset `gi`:
zero-length pieces are skipped, wholly-contained pieces are pushed whole,
the piece holding the start (and possibly the end) pushes the matching
slice, the piece holding only the end pushes its head. -/
def copy_loop (srcs : List (List Char)) (start e : Nat) : List Piece → Nat → List Char
  | [], _ => []
  | p :: rest, gi =>
    if p.length = 0 then copy_loop srcs start e rest gi
    else if start ≤ gi ∧ gi + p.length ≤ e then
      sliceSrc srcs p 0 p.length ++ copy_loop srcs start e rest (gi + p.length)
    else if gi ≤ start ∧ start < gi + p.length then
      if (gi < e ∧ e < gi + p.length) ∨ start = e then
        sliceSrc srcs p (start - gi) (e - gi)
      else
        sliceSrc srcs p (start - gi) p.length ++ copy_loop srcs start e rest (gi + p.length)
    else if gi ≤ e ∧ e < gi + p.length then
      sliceSrc srcs p 0 (e - gi) ++ copy_loop srcs start e rest (gi + p.length)
    else
      copy_loop srcs start e rest (gi + p.length)

/-- `PieceTable::copy_range` (copies `[start, e)` without touching the
piece sequence). -/
def copy_range (pt : PieceTable) (start e : Nat) : List Char :=
  copy_loop pt.sources start e pt.pieces 0

/-- First index of a match in a character list (`str::find` with a
predicate, as an index). -/
def find_first (pred : Char → Bool) : List Char → Option Nat
  | [] => none
  | c :: cs => if pred c then some 0 else (find_first pred cs).map (fun i => i + 1)

/-- Last index of a match in a character list (`str::rfind` with a
predicate, as an index). -/
def rfind (pred : Char → Bool) : List Char → Option Nat
  | [] => none
  | c :: cs =>
    match rfind pred cs with
    | some m => some (m + 1)
    | none => if pred c then some 0 else none

/-- The loop of `PieceTable::index_of_pred` with global offset `gi`:
pieces wholly before `start` are skipped; the search starts at `start`
inside the piece containing it and at the piece start afterwards. -/
def index_of_loop (srcs : List (List Char)) (pred : Char → Bool) :
    List Piece → Nat → Nat → Option Nat
  | [], _, _ => none
  | p :: rest, start, gi =>
    if gi + p.length ≤ start then index_of_loop srcs pred rest start (gi + p.length)
    else
      let ssip := if gi ≤ start ∧ start < gi + p.length then start - gi else 0
      match find_first pred (((srcs.getD p.source []).drop (p.start + ssip)).take (p.length - ssip)) with
      | some r => some (ssip + r + gi)
      | none => index_of_loop srcs pred rest start (gi + p.length)

/-- `PieceTable::index_of_pred`. -/
def index_of_pred (pt : PieceTable) (pred : Char → Bool) (start : Nat) : Option Nat :=
  index_of_loop pt.sources pred pt.pieces start 0

/-- `PieceTable::index_of`. -/
def index_of (pt : PieceTable) (c : Char) (start : Nat) : Option Nat :=
  pt.index_of_pred (fun sc => sc = c) start

/-- The loop of `PieceTable::last_index_of_pred`, iterating the pieces in
reverse with the global end offset `gie`: pieces entirely after `start`
are skipped; the piece containing `start` is searched up to it, earlier
pieces are searched whole. -/
def last_index_of_loop (srcs : List (List Char)) (pred : Char → Bool) :
    List Piece → Nat → Nat → Option Nat
  | [], _, _ => none
  | p :: rev_rest, start, gie =>
    if start ≤ gie - p.length then last_index_of_loop srcs pred rev_rest start (gie - p.length)
    else if gie - p.length < start ∧ start ≤ gie then
      match rfind pred (((srcs.getD p.source []).drop p.start).take (start - (gie - p.length))) with
      | some r => some (gie - p.length + r)
      | none => last_index_of_loop srcs pred rev_rest start (gie - p.length)
    else
      match rfind pred (((srcs.getD p.source []).drop p.start).take p.length) with
      | some r => some (gie - p.length + r)
      | none => last_index_of_loop srcs pred rev_rest start (gie - p.length)

/-- `PieceTable::last_index_of_pred`. -/
def last_index_of_pred (pt : PieceTable) (pred : Char → Bool) (start : Nat) : Option Nat :=
  last_index_of_loop pt.sources pred pt.pieces.reverse start pt.len

/-- `PieceTable::last_index_of`. -/
def last_index_of (pt : PieceTable) (c : Char) (start : Nat) : Option Nat :=
  pt.last_index_of_pred (fun sc => sc = c) start

/-- `PieceTable::dir_index_of`. -/
def dir_index_of (pt : PieceTable) (pred : Char → Bool) (start : Nat) (dir : Direction) : Option Nat :=
  match dir with
  | .Forward => pt.index_of_pred pred start
  | .Backward => pt.last_index_of_pred pred start

/-- The loop of `PieceTable::char_at`: first piece whose span contains the
index, then `sources[p.source].chars().nth(p.start + rel)`. -/
def char_at_loop (srcs : List (List Char)) : List Piece → Nat → Option Char
  | [], _ => none
  | p :: rest, i =>
    if i < p.length then (srcs.getD p.source []).get? (p.start + i)
    else char_at_loop srcs rest (i - p.length)

/-- `PieceTable::char_at`. -/
def char_at (pt : PieceTable) (i : Nat) : Option Char :=
  char_at_loop pt.sources pt.pieces i

/-- The scan of `PieceTable::chars`: the piece containing the index and
the offset inside it; out of bounds panics ("tried to start char iterator
out of bounds"), modelled as `none`. -/
def chars_locate : List Piece → Nat → Option (Nat × Nat)
  | [], _ => none
  | p :: rest, i =>
    if i < p.length then some (0, i)
    else (chars_locate rest (i - p.length)).map (fun r => (r.1 + 1, r.2))

/-- The character sequence produced by iterating `TableChars` forward from
`index`: the rest of the containing piece, then every later piece in
order (zero-length pieces contribute nothing). -/
def charsFwd (pt : PieceTable) (index : Nat) : Option (List Char) :=
  (chars_locate pt.pieces index).map fun r =>
    let p := pt.pieces.getD r.1 default
    (pieceChars pt.sources p).drop r.2 ++
      ((pt.pieces.drop (r.1 + 1)).map (pieceChars pt.sources)).flatten

/-- The character sequence produced by iterating `TableChars` backward
(`.rev()`) from `index`.  `DoubleEndedIterator::next_back` slices the
containing piece as `[start ..
start + (if local == 0 then length else local+1)]` — note the `local == 0`
quirk of the source, which yields the whole piece — and then walks every
earlier piece whole, back to front. -/
def charsBwd (pt : PieceTable) (index : Nat) : Option (List Char) :=
  (chars_locate pt.pieces index).map fun r =>
    let p := pt.pieces.getD r.1 default
    let e := if r.2 = 0 then p.length else r.2 + 1
    (((pt.sources.getD p.source []).drop p.start).take e).reverse ++
      (((pt.pieces.take r.1).map (fun q => (pieceChars pt.sources q).reverse)).reverse).flatten

end PieceTable

/-- `TableMutator` from `pk-common/src/piece_table.rs`. -/
structure TableMutator where
  piece_ix : Nat
  action : Action
deriving DecidableEq, Repr

namespace TableMutator

/-- `TableMutator::pop_char`: if the bound piece is already empty, return
`true` and change nothing; otherwise decrement the piece's length, pop the
last character of its backing source, and return `false`. -/
def pop_char (m : TableMutator) (pt : PieceTable) : PieceTable × Bool :=
  let p := pt.pieces.getD m.piece_ix default
  if p.length = 0 then (pt, true)
  else
    let pt1 := { pt with pieces := pt.pieces.set m.piece_ix ⟨p.source, p.start, p.length - 1⟩ }
    ({ pt1 with sources := pt1.sources.set p.source ((pt1.sources.getD p.source []).dropLast) },
     false)

/-- `TableMutator::push_char`: increment the piece's length and push the
character onto its backing source. -/
def push_char (m : TableMutator) (pt : PieceTable) (c : Char) : PieceTable :=
  let p := pt.pieces.getD m.piece_ix default
  let pt1 := { pt with pieces := pt.pieces.set m.piece_ix ⟨p.source, p.start, p.length + 1⟩ }
  { pt1 with sources := pt1.sources.set p.source ((pt1.sources.getD p.source []) ++ [c]) }

end TableMutator

/-- The buffer as seen by the motion engine: `pk-client/src/buffer.rs`
restricted to the two fields the motions read (`text`, `cursor_index`). -/
structure Buffer where
  text : PieceTable
  cursor_index : Nat
deriving DecidableEq, Repr

namespace Buffer

/-- `Buffer::with_text` from `pk-client/src/buffer.rs`. -/
def with_text (s : List Char) : Buffer :=
  ⟨PieceTable.with_text s, 0⟩

/-- `Buffer::next_line_index` from `pk-client/src/buffer.rs`. -/
def next_line_index (b : Buffer) (at_ : Nat) : Nat :=
  ((b.text.index_of '\n' at_).map (fun i => i + 1)).getD b.text.len

/-- `Buffer::current_start_of_line` from `pk-client/src/buffer.rs`. -/
def current_start_of_line (b : Buffer) (at_ : Nat) : Nat :=
  ((b.text.last_index_of '\n' at_).map (fun i => i + 1)).getD 0

/-- `Buffer::column_for_index` from `pk-client/src/buffer.rs`. -/
def column_for_index (b : Buffer) (index : Nat) : Nat :=
  index - b.current_start_of_line index

/-- `Buffer::last_line_index` from `pk-client/src/buffer.rs`. -/
def last_line_index (b : Buffer) (at_ : Nat) : Nat :=
  ((((b.text.last_index_of '\n' at_).bind
      (fun eoll => b.text.last_index_of '\n' eoll)).map (fun i => i + 1))).getD 0

/-- Modelled from the spec: `pk-common`'s `Buffer::current_column`, called
by the `Line` motion, is not under `src/` (only `pk-client`'s buffer is).
§4.2 describes the column stickiness as `min(current_column,
new_line_length)`, so the current column is the cursor's column,
i.e. `column_for_index(cursor_index)`. -/
def current_column (b : Buffer) : Nat :=
  b.column_for_index b.cursor_index

end Buffer

/-- `CharClass` from `pk-common/src/motion.rs`. -/
inductive CharClass where
  | Whitespace
  | Punctuation
  | Regular
deriving DecidableEq, Repr

/-- Rust `char::is_ascii_whitespace`: space, tab, newline, form feed,
carriage return. -/
def is_ascii_whitespace (c : Char) : Bool :=
  c = ' ' ∨ c = '\t' ∨ c = '\n' ∨ c = '\x0c' ∨ c = '\r'

/-- Rust `char::is_whitespace`, restricted to ASCII (the Unicode
whitespace code points play no role in any input considered here). -/
def is_whitespace (c : Char) : Bool :=
  c = ' ' ∨ c = '\t' ∨ c = '\n' ∨ c = '\x0b' ∨ c = '\x0c' ∨ c = '\r'

/-- Rust `char::is_alphanumeric`, restricted to ASCII. -/
def is_alphanumeric (c : Char) : Bool :=
  c.isAlphanum

/-- `CharClassify::class` from `pk-common/src/motion.rs`. -/
def charClass (c : Char) : CharClass :=
  if is_whitespace c ∨ is_ascii_whitespace c then .Whitespace
  else if ¬ is_alphanumeric c ∧ c ≠ '_' then .Punctuation
  else .Regular

/-- The `bigword` collapse of `pk-common/src/motion.rs`: punctuation is
reclassified as regular before running the word algorithm. -/
def collapseBig (bigword : Bool) (cc : CharClass) : CharClass :=
  if bigword ∧ cc = .Punctuation then .Regular else cc

/-- `TextObject` from `pk-common/src/motion.rs`. -/
inductive TextObject where
  | Word
  | BigWord
  | Paragraph
  | Block (c : Char)
deriving DecidableEq, Repr

/-- `MotionType` from `pk-common/src/motion.rs`. -/
inductive MotionType where
  | Char (d : Direction)
  | Word (d : Direction)
  | BigWord (d : Direction)
  | EndOfWord (d : Direction)
  | EndOfBigWord (d : Direction)
  | NextChar (c : Char) (place_before : Bool) (direction : Direction)
  | RepeatNextChar (opposite : Bool)
  | WholeLine
  | Line (d : Direction)
  | StartOfLine
  | EndOfLine
  | Paragraph
  | An (obj : TextObject)
  | Inner (obj : TextObject)
deriving DecidableEq, Repr

/-- `Motion` from `pk-common/src/motion.rs`. -/
structure Motion where
  count : Nat
  mo : MotionType
deriving DecidableEq, Repr

/-- `matching_block_char` from `pk-common/src/motion.rs`; the `panic!` on
any other character is modelled as `none`. -/
def matching_block_char (c : Char) : Option Char :=
  match c with
  | '{' => some '}'
  | '(' => some ')'
  | '[' => some ']'
  | '<' => some '>'
  | '"' => some '"'
  | '\'' => some '\''
  | _ => none

/-- `usize` wrapping subtraction (release-mode semantics of `a - b`). -/
def usize_sub (a b : Nat) : Nat :=
  (a + (2 ^ 64 - b % 2 ^ 64)) % 2 ^ 64

/-- `while chars.next().map_or(false, |cc| cc == scls) { e += 1 }` over a
class list. -/
def runLoop (scls : CharClass) : List CharClass → Nat → Nat
  | [], e => e
  | c :: cs, e => if c = scls then runLoop scls cs (e + 1) else e

/-- `while e < n && chars.next().map_or(false, |cc| cc == scls) { e += 1 }`
over a class list. -/
def ewLoop (scls : CharClass) (n : Nat) : List CharClass → Nat → Nat
  | [], e => e
  | c :: cs, e => if e < n ∧ c = scls then ewLoop scls n cs (e + 1) else e

/-- `while e > 0 && chars.next().map_or(false, |cc| cc == scls) { e -= 1 }`
over a class list. -/
def bwLoop (scls : CharClass) : List CharClass → Nat → Nat
  | [], e => e
  | c :: cs, e => if 0 < e ∧ c = scls then bwLoop scls cs (e - 1) else e

namespace Motion

/-- The `MotionType::Word(Forward)` arm of `Motion::range`: scan past the
run under the cursor (alphanumeric-or-underscore, or a punctuation run),
then past any following whitespace. -/
def word_fwd_step (buf : Buffer) (e : Nat) : Nat :=
  if ((buf.text.char_at e).map (fun c => is_alphanumeric c || c = '_')).getD false then
    let f := (buf.text.index_of_pred (fun sc => ! (is_alphanumeric sc || sc = '_')) e).getD e
    if ((buf.text.char_at f).map is_ascii_whitespace).getD false then
      (buf.text.index_of_pred (fun sc => ! is_ascii_whitespace sc) f).getD f
    else f
  else
    let f := (buf.text.index_of_pred
        (fun sc => is_ascii_whitespace sc || is_alphanumeric sc || sc = '_') (e + 1)).getD e
    if ((buf.text.char_at f).map is_ascii_whitespace).getD false then
      (buf.text.index_of_pred (fun sc => ! is_ascii_whitespace sc) f).getD f
    else f

/-- The `MotionType::Word(Backward)` arm of `Motion::range`.  The
`chars.peek().cloned().unwrap()` is modelled as `none` when the iterator
is exhausted. -/
def word_bwd_step (buf : Buffer) (e : Nat) : Option Nat :=
  (buf.text.charsBwd e).bind fun cl =>
    match cl.map charClass with
    | [] => some 0
    | _ :: rest =>
      let w := (rest.takeWhile (fun c => c = CharClass.Whitespace)).length
      let e1 := e - 1 - w
      let rest2 := rest.drop w
      match rest2.head? with
      | none => none
      | some scls =>
        let e2 := bwLoop scls rest2 e1
        some (if 0 < e2 then e2 + 1 else e2)

/-- The `MotionType::BigWord` arm of `Motion::range` (both directions);
note the source reads the scan start from `range.start`. -/
def big_word_step (buf : Buffer) (s : Nat) (dir : Direction) : Nat :=
  let next_blank := (buf.text.dir_index_of (fun sc => is_ascii_whitespace sc) s dir).getD s
  match dir with
  | .Forward => (buf.text.index_of_pred (fun sc => ! is_ascii_whitespace sc) next_blank).getD next_blank
  | .Backward =>
    ((buf.text.last_index_of_pred (fun sc => is_ascii_whitespace sc) next_blank).map
      (fun i => i + 1)).getD 0

/-- The `MotionType::EndOfWord(Forward)` / `EndOfBigWord(Forward)` arm of
`Motion::range`. -/
def eow_fwd_step (buf : Buffer) (bigword : Bool) (e : Nat) : Option Nat :=
  (buf.text.charsFwd e).bind fun cl =>
    match cl.map (fun c => collapseBig bigword (charClass c)) with
    | [] => some 0
    | starting :: rest =>
      let e1 := e + 1
      if starting ≠ CharClass.Whitespace ∧ rest.head? = some starting then
        some (runLoop starting rest e1 - 1)
      else
        let w := (rest.takeWhile (fun c => c = CharClass.Whitespace)).length
        let rest2 := rest.drop w
        match rest2.head? with
        | none => none
        | some scls => some (ewLoop scls buf.text.len rest2 (e1 + w) - 1)

/-- The `MotionType::EndOfWord(Backward)` / `EndOfBigWord(Backward)` arm
of `Motion::range`. -/
def eow_bwd_step (buf : Buffer) (bigword : Bool) (e : Nat) : Option Nat :=
  (buf.text.charsBwd e).map fun cl =>
    match cl.map (fun c => collapseBig bigword (charClass c)) with
    | [] => 0
    | starting :: rest =>
      let e1 := e - 1
      let m := if starting ≠ CharClass.Whitespace
               then (rest.takeWhile (fun c => c = starting)).length else 0
      let rest2 := rest.drop m
      (e1 - m) - (rest2.takeWhile (fun c => c = CharClass.Whitespace)).length

/-- The `MotionType::Line` arm of `Motion::range`: move to the start of
the next/previous line, then clamp the cursor column by
`index_of('\n', new_line_index).unwrap_or(0) - new_line_index` — a
`usize` subtraction that wraps (panics in debug builds) whenever the
destination line is not terminated by a newline. -/
def line_step (buf : Buffer) (e : Nat) (dir : Direction) : Nat :=
  let new_line_index :=
    match dir with
    | .Forward => buf.next_line_index e
    | .Backward => buf.last_line_index e
  let line_len := usize_sub ((buf.text.index_of '\n' new_line_index).getD 0) new_line_index
  (min buf.current_column line_len + new_line_index) % 2 ^ 64

/-- The `MotionType::StartOfLine` arm of `Motion::range`. -/
def start_of_line_step (buf : Buffer) (e : Nat) : Option Nat :=
  let e1 := buf.current_start_of_line e
  (buf.text.charsFwd e1).map fun cl =>
    e1 + ((cl.map charClass).takeWhile (fun c => c = CharClass.Whitespace)).length

/-- The `MotionType::NextChar` arm of `Motion::range`. -/
def next_char_step (buf : Buffer) (e : Nat) (c : Char) (place_before : Bool)
    (dir : Direction) : Nat :=
  let e1 := (buf.text.dir_index_of (fun cc => cc = c)
      (match dir with | .Forward => e + 1 | .Backward => e - 1) dir).getD e
  if place_before then
    match dir with
    | .Forward => e1 - 1
    | .Backward => e1 + 1
  else e1

end Motion

namespace TextObject

/-- The `for i in 0..count` loop of the `Word`/`BigWord` arm of
`TextObject::range`: per repetition consume the run of the starting class,
and (except on the first repetition of an "inner" object) one further run
— of whitespace, or of the class under the iterator if the starting class
was whitespace (the `unwrap` there is modelled as `none`). -/
def word_obj_go (starting : CharClass) (include_ : Bool) :
    Nat → Bool → List CharClass → Nat → Option Nat
  | 0, _, _, e => some e
  | n + 1, first, cls, e =>
    let m := (cls.takeWhile (fun c => c = starting)).length
    let cls1 := cls.drop m
    let e1 := e + m
    if ¬ first ∨ include_ then
      match (if starting = CharClass.Whitespace then cls1.head? else some CharClass.Whitespace) with
      | none => none
      | some class2 =>
        let m2 := (cls1.takeWhile (fun c => c = class2)).length
        word_obj_go starting include_ n false (cls1.drop m2) (e1 + m2)
    else
      word_obj_go starting include_ n false cls1 e1

/-- The `Word`/`BigWord` arm of `TextObject::range`: scan backwards while
the class under the cursor continues to find the range start, return
immediately for an "inner" whitespace object, then scan forward `count`
times and step back one. -/
def word_obj_range (buf : Buffer) (bigword : Bool) (count : Nat) (include_ : Bool) :
    Option (Nat × Nat) :=
  (buf.text.charsBwd buf.cursor_index).bind fun back =>
    match back.map (fun c => collapseBig bigword (charClass c)) with
    | [] => none
    | starting :: restb =>
      let start := buf.cursor_index - (restb.takeWhile (fun c => c = starting)).length
      if ¬ include_ ∧ starting = CharClass.Whitespace then some (start, buf.cursor_index)
      else
        (buf.text.charsFwd start).bind fun fwd =>
          (word_obj_go starting include_ count true
              (fwd.map (fun c => collapseBig bigword (charClass c))) start).map
            fun e => (start, e - 1)

/-- The forward scan of the `Block` arm of `TextObject::range`: walk right
counting nested opening delimiters, stopping at the closing delimiter that
brings the count to zero (or at the end of the text). -/
def block_fwd (openc closec : Char) : List Char → Nat → Nat → Nat
  | [], e, _ => e
  | c :: cs, e, cnt =>
    if c = openc then block_fwd openc closec cs (e + 1) (cnt + 1)
    else if c = closec then
      (if cnt = 0 then e else block_fwd openc closec cs (e + 1) (cnt - 1))
    else block_fwd openc closec cs (e + 1) cnt

/-- The `Block(open_char)` arm of `TextObject::range`: scan backward from
the cursor to the nearest opening delimiter (no nesting count), then
forward from the cursor with a nesting count; "an" keeps the delimiters,
"inner" shrinks the range by one on each side. -/
def block_range (openc : Char) (buf : Buffer) (include_ : Bool) : Option (Nat × Nat) :=
  (buf.text.charsBwd buf.cursor_index).bind fun back =>
    let start0 := buf.cursor_index - (back.takeWhile (fun c => ! (c = openc))).length
    let start := if include_ then start0 else start0 + 1
    (matching_block_char openc).bind fun closec =>
      (buf.text.charsFwd buf.cursor_index).map fun fwd =>
        let e := block_fwd openc closec fwd buf.cursor_index 0
        (start, if include_ then e else e - 1)

/-- `TextObject::range` (`include = true` for "an", `false` for "inner");
the `Paragraph` arm is `unimplemented!` in the source. -/
def range (obj : TextObject) (buf : Buffer) (count : Nat) (include_ : Bool) :
    Option (Nat × Nat) :=
  match obj with
  | .Word => word_obj_range buf false count include_
  | .BigWord => word_obj_range buf true count include_
  | .Block c => block_range c buf include_
  | .Paragraph => none

end TextObject

namespace Motion

/-- One repetition of the `for _ in 0..self.count` loop of
`Motion::range`, acting on the `(range.start, range.end)` pair.
`RepeatNextChar` and `Paragraph` are `unimplemented!` in the source. -/
def step (m : MotionType) (buf : Buffer) (r : Nat × Nat) : Option (Nat × Nat) :=
  match m with
  | .Char .Forward => some (r.1, r.2 + 1)
  | .Char .Backward => some (r.1, r.2 - 1)
  | .Line dir => some (r.1, line_step buf r.2 dir)
  | .StartOfLine => (start_of_line_step buf r.2).map (fun e => (r.1, e))
  | .EndOfLine => some (r.1, buf.next_line_index r.2 - 1)
  | .Word .Forward => some (r.1, word_fwd_step buf r.2)
  | .Word .Backward => (word_bwd_step buf r.2).map (fun e => (r.1, e))
  | .BigWord dir => some (r.1, big_word_step buf r.1 dir)
  | .EndOfWord .Forward => (eow_fwd_step buf false r.2).map (fun e => (r.1, e))
  | .EndOfBigWord .Forward => (eow_fwd_step buf true r.2).map (fun e => (r.1, e))
  | .EndOfWord .Backward => (eow_bwd_step buf false r.2).map (fun e => (r.1, e))
  | .EndOfBigWord .Backward => (eow_bwd_step buf true r.2).map (fun e => (r.1, e))
  | .NextChar c place_before dir => some (r.1, next_char_step buf r.2 c place_before dir)
  | .WholeLine => some (buf.current_start_of_line r.1, buf.next_line_index r.2)
  | .RepeatNextChar _ => none
  | .Paragraph => none
  | .An _ => none
  | .Inner _ => none

/-- The count loop of `Motion::range`. -/
def range_loop (m : MotionType) (buf : Buffer) : Nat → Nat × Nat → Option (Nat × Nat)
  | 0, r => some r
  | n + 1, r => (step m buf r).bind (range_loop m buf n)

/-- `Motion::range`: `An`/`Inner` dispatch to `TextObject::range`, every
other motion type starts from `cursor..cursor` and iterates `count`
times. -/
def range (mo : Motion) (buf : Buffer) : Option (Nat × Nat) :=
  match mo.mo with
  | .An obj => obj.range buf mo.count true
  | .Inner obj => obj.range buf mo.count false
  | m => range_loop m buf mo.count (buf.cursor_index, buf.cursor_index)

/-- Repeatedly evaluate a motion and move the cursor to each resulting
range end, collecting the ends visited (the pattern of the repository's
own motion tests). -/
def visits (mo : Motion) : Buffer → Nat → List Nat
  | _, 0 => []
  | b, n + 1 =>
    match mo.range b with
    | some r => r.2 :: visits mo { b with cursor_index := r.2 } n
    | none => []

end Motion

/-- `Error` from `pk-client/src/main.rs` (the variants the command layer
produces). -/
inductive Error where
  | IncompleteCommand
  | InvalidCommand (s : String)
  | UnknownCommand (s : String)
  | EmptyRegister (c : Char)
deriving DecidableEq, Repr

/-- `ModeTag` as used by `pk-client` (its definition is not under `src/`;
the variants are those `pk-client/src/command.rs` and
`pk-client/src/mode.rs` construct). -/
inductive ModeTag where
  | Normal
  | Insert
  | Command
  | Visual
  | Search (d : Direction)
deriving DecidableEq, Repr

/-- `Operator` from `pk-client/src/command.rs`. -/
inductive Operator where
  | Delete
  | Change
  | Yank
  | Indent (d : Direction)
  | MoveAndEnterMode (m : ModeTag)
  | NewLineAndEnterMode (d : Direction) (m : ModeTag)
  | ReplaceChar (c : Char)
deriving DecidableEq, Repr

/-- `ViewportMotion` from `pk-client/src/command.rs`. -/
inductive ViewportMotion where
  | CursorToMiddle
  | Line (d : Direction) (count : Nat)
deriving DecidableEq, Repr

/-- `Command` from `pk-client/src/command.rs`. -/
inductive Command where
  | Move (mo : Motion)
  | Repeat (count : Nat)
  | Undo (count : Nat)
  | Redo (count : Nat)
  | JoinLine (count : Nat)
  | Put (count : Nat) (source_register : Char) (clear_register : Bool)
  | Edit (op : Operator) (op_count : Nat) (mo : Motion) (target_register : Char)
  | Leader (c : Char)
  | Viewport (v : ViewportMotion)
  | ChangeMode (m : ModeTag)
deriving DecidableEq, Repr

/-- The digit-accumulating loop of `take_number` from
`pk-common/src/motion.rs`. -/
def take_number_go (acc : Nat) : List Char → Option Nat × List Char
  | [] => (some acc, [])
  | c :: rest =>
    if c.isDigit then take_number_go (acc * 10 + (c.toNat - '0'.toNat)) rest
    else (some acc, c :: rest)

/-- `take_number` from `pk-common/src/motion.rs`: consume a leading
decimal count, if present. -/
def take_number : List Char → Option Nat × List Char
  | [] => (none, [])
  | c :: rest =>
    if c.isDigit then take_number_go (c.toNat - '0'.toNat) rest
    else (none, c :: rest)

/-- The text-object table of the `i`/`a` arm of `Motion::parse`. -/
def parse_text_object (c : Char) : Option TextObject :=
  match c with
  | 'w' => some .Word
  | 'W' => some .BigWord
  | 'p' => some .Paragraph
  | '{' => some (.Block '{')
  | '}' => some (.Block '{')
  | '(' => some (.Block '(')
  | ')' => some (.Block '(')
  | '[' => some (.Block '[')
  | ']' => some (.Block '[')
  | '<' => some (.Block '<')
  | '>' => some (.Block '<')
  | '"' => some (.Block '"')
  | '\'' => some (.Block '\'')
  | _ => none

/-- The motion-type match of `Motion::parse` from
`pk-common/src/motion.rs`, over the characters left after the count. -/
def parse_motion_type (cs : List Char) (opchar : Option Char) (wholecmd : String) :
    Except Error MotionType :=
  match cs.head? with
  | some 'h' => .ok (.Char .Backward)
  | some 'j' => .ok (.Line .Forward)
  | some 'k' => .ok (.Line .Backward)
  | some 'l' => .ok (.Char .Forward)
  | some 'w' => .ok (.Word .Forward)
  | some 'b' => .ok (.Word .Backward)
  | some 'W' => .ok (.BigWord .Forward)
  | some 'B' => .ok (.BigWord .Backward)
  | some 'e' => .ok (.EndOfWord .Forward)
  | some 'E' => .ok (.EndOfBigWord .Forward)
  | some 'g' =>
    match (cs.drop 1).head? with
    | some 'e' => .ok (.EndOfWord .Backward)
    | some 'E' => .ok (.EndOfBigWord .Backward)
    | some _ => .error (.UnknownCommand wholecmd)
    | none => .error .IncompleteCommand
  | some '^' => .ok .StartOfLine
  | some '$' => .ok .EndOfLine
  | some '_' => .ok .WholeLine
  | some tc =>
    if tc = 'f' ∨ tc = 'F' ∨ tc = 't' ∨ tc = 'T' then
      match (cs.drop 1).head? with
      | none => .error .IncompleteCommand
      | some ch => .ok (.NextChar ch (tc = 't' ∨ tc = 'T')
          (if tc = 'f' ∨ tc = 't' then .Forward else .Backward))
    else if (tc = 'i' ∨ tc = 'a') ∧ opchar.isSome then
      match (cs.drop 1).head? with
      | none => .error .IncompleteCommand
      | some oc =>
        match parse_text_object oc with
        | none => .error (.UnknownCommand wholecmd)
        | some obj => .ok (if tc = 'i' then .Inner obj else .An obj)
    else if tc = ';' then .ok (.RepeatNextChar true)
    else if opchar = some tc then .ok .WholeLine
    else .error (.UnknownCommand wholecmd)
  | none => .error .IncompleteCommand

namespace Motion

/-- `Motion::parse` from `pk-common/src/motion.rs`: an optional count,
then a motion type; absent counts default to 1. -/
def parse (cs : List Char) (opchar : Option Char) (wholecmd : String) :
    Except Error Motion :=
  let nc := take_number cs
  match parse_motion_type nc.2 opchar wholecmd with
  | .error e => .error e
  | .ok txo => .ok ⟨nc.1.getD 1, txo⟩

end Motion

namespace Command

/-- The tail of `Command::parse` after an operator key has been consumed:
parse a motion with the operator character as `opchar` and build an
`Edit`. -/
def finish_edit (s : String) (target_reg : Option Char) (opcount : Option Nat)
    (op : Operator) (opchar : Char) (cs : List Char) : Except Error Command :=
  match Motion.parse cs (some opchar) s with
  | .error e => .error e
  | .ok mo => .ok (.Edit op (opcount.getD 1) mo (target_reg.getD '"'))

/-- The general form of `Command::parse` (after the single-key commands
and an optional `"<register>` prefix): optional count, optional operator
key, then a motion; `x`/`p`/`P` and the `u`/`U`/`J`/`.`/leader/viewport
keys return immediately. -/
def parse_general (s : String) (target_reg : Option Char) (cs0 : List Char) :
    Except Error Command :=
  let nc := take_number cs0
  let opcount := nc.1
  let cs := nc.2
  match cs.head? with
  | some '.' => .ok (.Repeat (opcount.getD 1))
  | some 'u' => .ok (.Undo (opcount.getD 1))
  | some 'U' => .ok (.Redo (opcount.getD 1))
  | some 'J' => .ok (.JoinLine (opcount.getD 1))
  | some 'd' => finish_edit s target_reg opcount .Delete 'd' (cs.drop 1)
  | some 'c' => finish_edit s target_reg opcount .Change 'c' (cs.drop 1)
  | some 'y' => finish_edit s target_reg opcount .Yank 'y' (cs.drop 1)
  | some '<' => finish_edit s target_reg opcount (.Indent .Backward) '<' (cs.drop 1)
  | some '>' => finish_edit s target_reg opcount (.Indent .Forward) '>' (cs.drop 1)
  | some 'x' => .ok (.Edit .Delete (opcount.getD 1) ⟨1, .Char .Forward⟩ (target_reg.getD '"'))
  | some 'p' => .ok (.Put (opcount.getD 1) (target_reg.getD '"') true)
  | some 'P' => .ok (.Put (opcount.getD 1) (target_reg.getD '"') false)
  | some ' ' =>
    match (cs.drop 1).head? with
    | some ch => .ok (.Leader ch)
    | none => .error .IncompleteCommand
  | some 'z' =>
    match (cs.drop 1).head? with
    | some 'z' => .ok (.Viewport .CursorToMiddle)
    | some 'j' => .ok (.Viewport (.Line .Forward (opcount.getD 1)))
    | some 'k' => .ok (.Viewport (.Line .Backward (opcount.getD 1)))
    | some _ => .error (.UnknownCommand s)
    | none => .error .IncompleteCommand
  | _ =>
    match Motion.parse cs none s with
    | .error e => .error e
    | .ok mo => .ok (.Move ⟨mo.count * (opcount.getD 1), mo.mo⟩)

/-- `Command::parse` from `pk-client/src/command.rs`: a pure function of
the pending keystroke string.  Single-key immediate commands are
recognised first, a leading `"<register>` sets the target register, and
everything else goes through the count/operator/motion form. -/
def parse (s : String) : Except Error Command :=
  match s.toList with
  | [] => .error (.InvalidCommand s)
  | c :: rest =>
    match c with
    | 'i' => .ok (.ChangeMode .Insert)
    | 'I' => .ok (.Edit (.MoveAndEnterMode .Insert) 1 ⟨1, .StartOfLine⟩ '"')
    | 'a' => .ok (.Edit (.MoveAndEnterMode .Insert) 1 ⟨1, .Char .Forward⟩ '"')
    | 'A' => .ok (.Edit (.MoveAndEnterMode .Insert) 1 ⟨1, .EndOfLine⟩ '"')
    | 'o' => .ok (.Edit (.NewLineAndEnterMode .Forward .Insert) 1 ⟨1, .Line .Forward⟩ '"')
    | 'O' => .ok (.Edit (.NewLineAndEnterMode .Backward .Insert) 1 ⟨1, .Line .Backward⟩ '"')
    | 'v' => .ok (.ChangeMode .Visual)
    | ':' => .ok (.ChangeMode .Command)
    | '/' => .ok (.ChangeMode (.Search .Forward))
    | '?' => .ok (.ChangeMode (.Search .Backward))
    | 'r' =>
      match rest.head? with
      | none => .error .IncompleteCommand
      | some ch => .ok (.Edit (.ReplaceChar ch) 1 ⟨0, .Char .Forward⟩ '"')
    | '"' => parse_general s rest.head? (rest.drop 1)
    | _ => parse_general s none (c :: rest)

end Command

/-- The slice of the editor state the `Command::Put` arm touches: the
current buffer and the register store (a char-keyed map owned by the
caller). -/
structure PutState where
  buf : Buffer
  registers : Char → Option (List Char)

namespace Command

/-- The `Command::Put` arm of `Command::execute` from
`pk-client/src/command.rs`: a missing register fails with `EmptyRegister`
before anything is touched; otherwise the register text is inserted at the
start of the line after the current one when it ends in a newline, and at
the cursor otherwise; the cursor moves to the end of the insertion and the
register is optionally cleared. -/
def execute_put (st : PutState) (source_register : Char) (clear_register : Bool) :
    PutState × Option Error :=
  match st.registers source_register with
  | none => (st, some (.EmptyRegister source_register))
  | some src =>
    let insertion_point :=
      if src.getLast? = some '\n' then st.buf.next_line_index st.buf.cursor_index
      else st.buf.cursor_index
    let buf1 : Buffer :=
      { text := st.buf.text.insert_range src insertion_point
        cursor_index := insertion_point + (src.length - 1) }
    let regs1 := if clear_register
      then (fun c => if c = source_register then none else st.registers c)
      else st.registers
    (⟨buf1, regs1⟩, none)

end Command

/-! Concrete inputs used by the claim theorems. -/

/-- The word-motion test buffer of the spec and of
`pk-common/src/motion.rs` (`create_word_test_buffer`). -/
def wordTestBuffer : Buffer :=
  Buffer.with_text ("word\nw0rd w##d ++++ word\n").toList

/-- The block-motion test buffer of the spec and of
`pk-common/src/motion.rs`. -/
def blockTestBuffer : Buffer :=
  Buffer.with_text ("<(bl(o)ck) \x7b\nblock\n\x7d>").toList

/-- A table whose text is "aXYb" built from four pieces:
`with_text("ab")`, then `insert_range("X", 1)`, then
`insert_range("Y", 2)`. -/
def fourPieceTable : PieceTable :=
  ((PieceTable.with_text ("ab").toList).insert_range ("X").toList 1).insert_range ("Y").toList 2

/-- A buffer whose last line is not terminated by a newline, with the
cursor at column 3 of the first line. -/
def noFinalNewlineBuffer : Buffer :=
  { Buffer.with_text ("abcd\nxy").toList with cursor_index := 3 }

/-- The `copy_range_multiple_pieces` table of the repository's tests:
"hello" with "X" inserted at 3. -/
def copyTestTable : PieceTable :=
  (PieceTable.with_text ("hello").toList).insert_range ("X").toList 3

/-! Helper lemmas. -/

/-- `List.set` followed by `List.getD` at the written index. -/
theorem getD_set_self {α : Type} (l : List α) (i : Nat) (a d : α) :
    (l.set i a).getD i d = if i < l.length then a else d := by
  induction l generalizing i with
  | nil => simp
  | cons x xs ih =>
    cases i with
    | zero => simp
    | succ n =>
      simp only [List.set_cons_succ, List.getD_cons_succ, List.length_cons,
        Nat.succ_lt_succ_iff]
      exact ih n

/-! Theorems for the claims. -/

/-- Claim C10: inserting the empty string at any index leaves the piece
table — text, pieces, sources, history and `next_action_id` — completely
unchanged, and creates no source: `insert_range` returns before building
an action. -/
theorem insert_range_empty_noop (pt : PieceTable) (i : Nat) :
    pt.insert_range [] i = pt :=
  rfl

/-- Claim C7: `apply_action` panics (modelled `none`) exactly when the
action's id is not newer than the table's id high-water mark
(`next_action_id`, i.e. one past the current action id) — never a silent
no-op — and otherwise applies each of the action's changes in order to
the piece sequence (a change whose recorded index is out of bounds
panics, and that panic propagates) and sets `next_action_id` to the
action's id plus one. -/
theorem apply_action_spec (pt : PieceTable) (a : Action) :
    (a.id < pt.next_action_id → pt.apply_action a = none) ∧
    (pt.next_action_id ≤ a.id →
      ∀ ps, a.changes.foldlM (fun ps c => PieceTable.enact_change c ps) pt.pieces =
          some ps →
        pt.apply_action a = some { pt with pieces := ps, next_action_id := a.id + 1 }) ∧
    (pt.next_action_id ≤ a.id →
      a.changes.foldlM (fun ps c => PieceTable.enact_change c ps) pt.pieces = none →
        pt.apply_action a = none) := by
  refine ⟨?_, ?_, ?_⟩
  · intro h
    simp [PieceTable.apply_action, h]
  · intro h ps hfold
    simp [PieceTable.apply_action, Nat.not_lt.mpr h, hfold]
  · intro h hfold
    simp [PieceTable.apply_action, Nat.not_lt.mpr h, hfold]

/-- Witness for `apply_action_spec`: on `with_text "hi"` (id high-water
mark 1), an action with id 0 faults; an action with id 1 whose single
insertion is in bounds applies it and advances the mark to 2; and an
action with id 1 whose insertion indexes past the end of the piece list
faults. -/
theorem apply_action_spec_witness :
    (PieceTable.with_text ("hi").toList).apply_action ⟨[], 0⟩ = none ∧
    (PieceTable.with_text ("hi").toList).apply_action ⟨[.insert 0 ⟨0, 0, 0⟩], 1⟩ =
      some { PieceTable.with_text ("hi").toList with
        pieces := [⟨0, 0, 0⟩, ⟨0, 0, 2⟩]
        next_action_id := 2 } ∧
    (PieceTable.with_text ("hi").toList).apply_action ⟨[.insert 5 ⟨0, 0, 0⟩], 1⟩ = none :=
  ⟨(apply_action_spec (PieceTable.with_text ("hi").toList) ⟨[], 0⟩).1 (by decide),
   (apply_action_spec (PieceTable.with_text ("hi").toList)
      ⟨[.insert 0 ⟨0, 0, 0⟩], 1⟩).2.1 (by decide) [⟨0, 0, 0⟩, ⟨0, 0, 2⟩] (by decide),
   (apply_action_spec (PieceTable.with_text ("hi").toList)
      ⟨[.insert 5 ⟨0, 0, 0⟩], 1⟩).2.2 (by decide) (by decide)⟩

/-- Claim C3: the parse examples of the spec.  `"2dw"` puts the leading
count on the operator, `"d2w"` puts it on the motion, `"\"adw"` targets
register `a`, `"x"` is an implicit-motion delete, `"Z"` is an unknown
command and a lone `"d"` is incomplete.  `Command.parse` is a pure
function of the keystroke string, so failures touch no state. -/
theorem command_parse_examples :
    Command.parse "2dw" =
      .ok (.Edit .Delete 2 ⟨1, .Word .Forward⟩ '"') ∧
    Command.parse "d2w" =
      .ok (.Edit .Delete 1 ⟨2, .Word .Forward⟩ '"') ∧
    Command.parse "\"adw" =
      .ok (.Edit .Delete 1 ⟨1, .Word .Forward⟩ 'a') ∧
    Command.parse "x" =
      .ok (.Edit .Delete 1 ⟨1, .Char .Forward⟩ '"') ∧
    Command.parse "Z" = .error (.UnknownCommand "Z") ∧
    Command.parse "d" = .error .IncompleteCommand :=
  ⟨rfl, rfl, rfl, rfl, rfl, rfl⟩

/-- Claim C4: on `"word\nw0rd w##d ++++ word\n"` starting at index 0,
`Word(Forward)` visits exactly the offsets `[5,10,11,13,15,20]` and
`EndOfBigWord(Forward)` visits exactly `[3,8,13,18,23]`. -/
theorem word_motion_visits :
    Motion.visits ⟨1, .Word .Forward⟩ wordTestBuffer 6 = [5, 10, 11, 13, 15, 20] ∧
    Motion.visits ⟨1, .EndOfBigWord .Forward⟩ wordTestBuffer 5 = [3, 8, 13, 18, 23] := by
  decide

/-- Claim C5, evaluated on the code: on `"<(bl(o)ck) {\nblock\n}>"`,
`An(Block('('))` with the cursor inside the nested parenthesis (index 5)
does yield `4..6`, but `Inner(Block('('))` with the cursor on the outer
opening parenthesis (index 1) yields `2..20` — not the `2..8` the claim
(and the file's own `txo_object_inner_block` test) states: the forward
scan starts at the cursor, counts the `(` under the cursor as a nested
opening delimiter, and therefore skips its true partner and runs to the
end of the text. -/
theorem block_object_eval :
    Motion.range ⟨1, .An (.Block '(')⟩ { blockTestBuffer with cursor_index := 5 } =
      some (4, 6) ∧
    Motion.range ⟨1, .Inner (.Block '(')⟩ { blockTestBuffer with cursor_index := 1 } =
      some (2, 20) := by
  decide

/-- Claim C9, evaluated on the code: on `"abcd\nxy"` with the cursor at
index 3 (column 3), `Line(Forward)` moves to the start of the last line
(index 5), but because that line has no terminating newline the line
length is computed as `0 - 5` in `usize` — the claim's
`min(current_column, new_line_length)` clamp never applies and the range
end lands at 8, one past the end of the 7-character buffer (debug builds
panic on the underflow instead). -/
theorem line_motion_final_line_eval :
    Motion.range ⟨1, .Line .Forward⟩ noFinalNewlineBuffer = some (3, 8) ∧
    noFinalNewlineBuffer.text.len = 7 ∧
    min noFinalNewlineBuffer.current_column 2 + 5 = 7 := by
  decide

/-- Claim C1, evaluated on the code: `fourPieceTable` has text "aXYb" in
four pieces; `delete_range(0, 3)` spans all four (two pieces lie strictly
inside the range), and the following `undo` yields "aXbb" instead of the
prior text "aXYb" — reverse-applying the recorded `Delete` changes
re-inserts the deleted pieces at their original indices in reverse order,
which misplaces them once two or more whole pieces were removed in one
call. -/
theorem delete_range_undo_corrupts_text :
    fourPieceTable.text = ("aXYb").toList ∧
    fourPieceTable.pieces.length = 4 ∧
    (fourPieceTable.delete_range 0 3).map (fun pt => pt.undo.text) =
      some ("aXbb").toList := by
  decide

/-- Claim C8, counterexample: a mutator bound to a piece of length 1.
`pop_char` empties the piece (its length becomes 0) yet returns `false`
— the return value reports whether the piece was empty *before* the call,
not whether it is empty once the call completes. -/
theorem pop_char_claim_counterexample :
    ((TableMutator.mk 0 ⟨[], 0⟩).pop_char ⟨[('A' :: [])], [⟨0, 0, 1⟩], [], 1⟩).2 = false ∧
    (((TableMutator.mk 0 ⟨[], 0⟩).pop_char
        ⟨[('A' :: [])], [⟨0, 0, 1⟩], [], 1⟩).1.pieces.getD 0 default).length = 0 := by
  decide

/-- Claim C8 as amended: `pop_char` returns `true` exactly when the bound
piece was already empty before the call (in which case nothing changes);
otherwise it removes the final character from both the piece (its length
decrements) and its backing source, and returns `false`. -/
theorem pop_char_spec (pt : PieceTable) (m : TableMutator)
    (h : m.piece_ix < pt.pieces.length) :
    ((m.pop_char pt).2 = true ↔ (pt.pieces.getD m.piece_ix default).length = 0) ∧
    ((pt.pieces.getD m.piece_ix default).length = 0 → (m.pop_char pt).1 = pt) ∧
    (0 < (pt.pieces.getD m.piece_ix default).length →
      ((m.pop_char pt).1.pieces.getD m.piece_ix default).length =
        (pt.pieces.getD m.piece_ix default).length - 1 ∧
      (m.pop_char pt).1.sources.getD (pt.pieces.getD m.piece_ix default).source [] =
        ((pt.sources.getD (pt.pieces.getD m.piece_ix default).source []).dropLast)) := by
  unfold TableMutator.pop_char
  by_cases h0 : (pt.pieces.getD m.piece_ix default).length = 0
  · rw [if_pos h0]
    refine ⟨?_, fun _ => rfl, fun hlt => absurd h0 (by omega)⟩
    constructor
    · intro _
      exact h0
    · intro _
      rfl
  · rw [if_neg h0]
    refine ⟨?_, fun hc => absurd hc h0, fun _ => ⟨?_, ?_⟩⟩
    · constructor
      · intro hf
        exact absurd (show false = true from hf) (by decide)
      · intro hc
        exact absurd hc h0
    · rw [getD_set_self, if_pos h]
    · rw [getD_set_self]
      by_cases hs : (pt.pieces.getD m.piece_ix default).source < pt.sources.length
      · rw [if_pos hs]
      · rw [if_neg hs, List.getD_eq_default _ _ (Nat.le_of_not_lt hs)]
        rfl

/-- Witness for `pop_char_spec` at a table with a two-character piece. -/
theorem pop_char_spec_witness :
    (((TableMutator.mk 0 ⟨[], 0⟩).pop_char
        ⟨[('A' :: 'B' :: [])], [⟨0, 0, 2⟩], [], 1⟩).2 = true ↔
      (([⟨0, 0, 2⟩] : List Piece).getD 0 default).length = 0) ∧
    ((([⟨0, 0, 2⟩] : List Piece).getD 0 default).length = 0 →
      ((TableMutator.mk 0 ⟨[], 0⟩).pop_char
        ⟨[('A' :: 'B' :: [])], [⟨0, 0, 2⟩], [], 1⟩).1 =
        ⟨[('A' :: 'B' :: [])], [⟨0, 0, 2⟩], [], 1⟩) ∧
    (0 < (([⟨0, 0, 2⟩] : List Piece).getD 0 default).length →
      ((((TableMutator.mk 0 ⟨[], 0⟩).pop_char
          ⟨[('A' :: 'B' :: [])], [⟨0, 0, 2⟩], [], 1⟩).1.pieces).getD 0 default).length =
        (([⟨0, 0, 2⟩] : List Piece).getD 0 default).length - 1 ∧
      ((TableMutator.mk 0 ⟨[], 0⟩).pop_char
          ⟨[('A' :: 'B' :: [])], [⟨0, 0, 2⟩], [], 1⟩).1.sources.getD 0 [] =
        (([('A' :: 'B' :: [])] : List (List Char)).getD 0 []).dropLast) :=
  pop_char_spec ⟨[('A' :: 'B' :: [])], [⟨0, 0, 2⟩], [], 1⟩ ⟨0, ⟨[], 0⟩⟩ (by decide)

/-- Under the piece-bound invariant, the text of one piece has exactly the
piece's recorded length. -/
theorem pieceChars_length (srcs : List (List Char)) (p : Piece)
    (h : p.start + p.length ≤ (srcs.getD p.source []).length) :
    (pieceChars srcs p).length = p.length := by
  simp only [pieceChars, List.length_take, List.length_drop]
  omega

/-- Dropping into a piece's text is slicing the source further right. -/
theorem pieceChars_drop (srcs : List (List Char)) (p : Piece) (d : Nat) :
    (pieceChars srcs p).drop d =
      ((srcs.getD p.source []).drop (p.start + d)).take (p.length - d) := by
  simp only [pieceChars, List.drop_take, List.drop_drop]

/-- Taking a prefix of a piece's text is taking a prefix of the slice. -/
theorem pieceChars_take (srcs : List (List Char)) (p : Piece) (x : Nat)
    (hx : x ≤ p.length) :
    (pieceChars srcs p).take x = ((srcs.getD p.source []).drop p.start).take x := by
  simp only [pieceChars, List.take_take, Nat.min_eq_left hx]

namespace PieceTable

/-- The loop of `copy_range` returns the requested slice of the remaining
text: with global offset `gi` on a piece suffix `ps` it produces
`textPieces ps` between the clamped bounds. -/
theorem copy_loop_eq (srcs : List (List Char)) (s e : Nat) :
    ∀ (ps : List Piece) (gi : Nat),
      (∀ p ∈ ps, p.start + p.length ≤ (srcs.getD p.source []).length) →
      s ≤ e → e ≤ gi + totalLen ps →
      copy_loop srcs s e ps gi =
        ((textPieces srcs ps).drop (s - gi)).take (e - max s gi) := by
  intro ps
  induction ps with
  | nil =>
    intro gi _ _ _
    simp [copy_loop, textPieces]
  | cons p rest ih =>
    intro gi hwf hse hle
    have hwfp : p.start + p.length ≤ (srcs.getD p.source []).length :=
      hwf p (List.mem_cons_self p rest)
    have hwfr : ∀ q ∈ rest, q.start + q.length ≤ (srcs.getD q.source []).length :=
      fun q hq => hwf q (List.mem_cons_of_mem p hq)
    have htp : (pieceChars srcs p).length = p.length := pieceChars_length srcs p hwfp
    have hlen : totalLen (p :: rest) = p.length + totalLen rest := rfl
    rw [copy_loop]
    show (if p.length = 0 then copy_loop srcs s e rest gi
      else if s ≤ gi ∧ gi + p.length ≤ e then
        sliceSrc srcs p 0 p.length ++ copy_loop srcs s e rest (gi + p.length)
      else if gi ≤ s ∧ s < gi + p.length then
        if (gi < e ∧ e < gi + p.length) ∨ s = e then
          sliceSrc srcs p (s - gi) (e - gi)
        else
          sliceSrc srcs p (s - gi) p.length ++ copy_loop srcs s e rest (gi + p.length)
      else if gi ≤ e ∧ e < gi + p.length then
        sliceSrc srcs p 0 (e - gi) ++ copy_loop srcs s e rest (gi + p.length)
      else copy_loop srcs s e rest (gi + p.length)) = _
    split_ifs with h1 h2 h3 h4 h5
    · -- zero-length piece: its text is empty
      have htp0 : pieceChars srcs p = [] := by
        simp [pieceChars, h1]
      rw [ih gi hwfr hse (by omega)]
      simp [textPieces, htp0]
    · -- the range contains the whole piece
      have hs0 : s - gi = 0 := by omega
      have hmax : max s gi = gi := by omega
      rw [ih (gi + p.length) hwfr hse (by omega)]
      have hs0' : s - (gi + p.length) = 0 := by omega
      have hmax' : max s (gi + p.length) = gi + p.length := by omega
      rw [hs0', hmax']
      simp only [textPieces, hs0, hmax, List.drop_zero, List.take_append_eq_append_take, htp]
      have hslice : sliceSrc srcs p 0 p.length = pieceChars srcs p := by
        simp [sliceSrc, pieceChars]
      rw [hslice, List.take_of_length_le (by omega : (pieceChars srcs p).length ≤ e - gi)]
      have : e - gi - p.length = e - (gi + p.length) := by omega
      rw [this]
    · -- the range starts in this piece and ends in it too (or is empty)
      have hmax : max s gi = s := by omega
      have hegi : e - gi ≤ p.length := by omega
      rw [hmax]
      simp only [textPieces, List.drop_append_eq_append_drop, htp,
        List.take_append_eq_append_take]
      have hz : s - gi - p.length = 0 := by omega
      rw [hz, List.drop_zero]
      have hlen2 : ((pieceChars srcs p).drop (s - gi)).length = p.length - (s - gi) := by
        rw [List.length_drop, htp]
      rw [hlen2]
      have hz2 : e - s - (p.length - (s - gi)) = 0 := by omega
      rw [hz2, List.take_zero, List.append_nil]
      rw [pieceChars_drop, List.take_take]
      have hmin : min (e - s) (p.length - (s - gi)) = e - s := by omega
      rw [hmin]
      show ((srcs.getD p.source []).drop (p.start + (s - gi))).take ((e - gi) - (s - gi)) = _
      have : (e - gi) - (s - gi) = e - s := by omega
      rw [this]
    · -- the range starts in this piece and extends past it
      have he : gi + p.length ≤ e := by omega
      have hmax : max s gi = s := by omega
      rw [ih (gi + p.length) hwfr hse (by omega), hmax]
      have hz : s - (gi + p.length) = 0 := by omega
      have hmax2 : max s (gi + p.length) = gi + p.length := by omega
      rw [hz, hmax2, List.drop_zero]
      simp only [textPieces, List.drop_append_eq_append_drop, htp,
        List.take_append_eq_append_take]
      have hz2 : s - gi - p.length = 0 := by omega
      rw [hz2, List.drop_zero]
      have hlen2 : ((pieceChars srcs p).drop (s - gi)).length = p.length - (s - gi) := by
        rw [List.length_drop, htp]
      rw [hlen2]
      have htake : ((pieceChars srcs p).drop (s - gi)).take (e - s) =
          (pieceChars srcs p).drop (s - gi) :=
        List.take_of_length_le (by rw [hlen2]; omega)
      rw [htake]
      have hslice : sliceSrc srcs p (s - gi) p.length = (pieceChars srcs p).drop (s - gi) := by
        rw [pieceChars_drop, sliceSrc]
      rw [hslice]
      have : e - s - (p.length - (s - gi)) = e - (gi + p.length) := by omega
      rw [this]
    · -- the range ends in this piece and starts before it
      have hs : s < gi := by omega
      have hmax : max s gi = gi := by omega
      rw [ih (gi + p.length) hwfr hse (by omega), hmax]
      have hz : s - (gi + p.length) = 0 := by omega
      have hmax2 : max s (gi + p.length) = gi + p.length := by omega
      have hz3 : e - (gi + p.length) = 0 := by omega
      rw [hz, hmax2, hz3, List.drop_zero, List.take_zero]
      have hz4 : s - gi = 0 := by omega
      rw [hz4, List.drop_zero]
      simp only [textPieces, List.take_append_eq_append_take, htp]
      have hz5 : e - gi - p.length = 0 := by omega
      rw [hz5, List.take_zero, List.append_nil]
      have hslice : sliceSrc srcs p 0 (e - gi) = (pieceChars srcs p).take (e - gi) := by
        rw [sliceSrc, pieceChars_take srcs p (e - gi) (by omega)]
        simp
      rw [hslice, List.append_nil]
    · -- the piece lies entirely before the range start or after its end
      rcases Nat.lt_or_ge e gi with hd | hd
      · -- entirely after the end
        have hz : s - gi = 0 := by omega
        have hmax : max s gi = gi := by omega
        have hz2 : e - gi = 0 := by omega
        rw [ih (gi + p.length) hwfr hse (by omega), hz, hmax, hz2, List.drop_zero,
          List.take_zero]
        have hz3 : s - (gi + p.length) = 0 := by omega
        have hmax2 : max s (gi + p.length) = gi + p.length := by omega
        have hz4 : e - (gi + p.length) = 0 := by omega
        rw [hz3, hmax2, hz4, List.drop_zero, List.take_zero]
      · -- entirely before the start
        have hs : gi + p.length ≤ s := by omega
        have hmax : max s gi = s := by omega
        rw [ih (gi + p.length) hwfr hse (by omega), hmax]
        have hmax2 : max s (gi + p.length) = s := by omega
        rw [hmax2]
        simp only [textPieces, List.drop_append_eq_append_drop, htp]
        have hdrop : (pieceChars srcs p).drop (s - gi) = [] :=
          List.drop_of_length_le (by rw [htp]; omega)
        rw [hdrop]
        have : s - gi - p.length = s - (gi + p.length) := by omega
        rw [this, List.nil_append]

end PieceTable

/-- Claim C2: on every well-formed piece table (every state reachable
through the public API keeps pieces inside their sources) and every pair
`s ≤ e ≤ len`, `copy_range s e` returns exactly the substring
`text()[s..e]` — including the empty string when `s = e`.  `copy_range` is
a pure function of the table, so the piece sequence is untouched. -/
theorem copy_range_eq_text_slice (pt : PieceTable) (s e : Nat)
    (hwf : pt.wf) (hse : s ≤ e) (he : e ≤ pt.len) :
    pt.copy_range s e = ((pt.text).drop s).take (e - s) := by
  have h := PieceTable.copy_loop_eq pt.sources s e pt.pieces 0
    (fun p hp => (hwf p hp).2) hse (by simpa [PieceTable.len, totalLen] using he)
  simpa [PieceTable.copy_range, PieceTable.text] using h

/-- Witness for `copy_range_eq_text_slice`: the repository's
`copy_range_multiple_pieces` table ("hello" with "X" inserted at 3),
copying `[1, 5)`. -/
theorem copy_range_eq_text_slice_witness :
    copyTestTable.copy_range 1 5 = ((copyTestTable.text).drop 1).take (5 - 1) :=
  copy_range_eq_text_slice copyTestTable 1 5 (by decide) (by decide) (by decide)

/-- Appending a new source does not change the text of a piece that names
an existing source. -/
theorem pieceChars_append_src (srcs : List (List Char)) (s : List Char) (p : Piece)
    (h : p.source < srcs.length) :
    pieceChars (srcs ++ [s]) p = pieceChars srcs p := by
  simp only [pieceChars, List.getD_append _ _ _ _ h]

/-- Appending a new source does not change the text of pieces that name
existing sources. -/
theorem textPieces_append_src (srcs : List (List Char)) (s : List Char) :
    ∀ ps : List Piece, (∀ p ∈ ps, p.source < srcs.length) →
      textPieces (srcs ++ [s]) ps = textPieces srcs ps := by
  intro ps
  induction ps with
  | nil => intro _; rfl
  | cons p rest ih =>
    intro h
    simp only [textPieces,
      pieceChars_append_src srcs s p (h p (List.mem_cons_self p rest)),
      ih (fun q hq => h q (List.mem_cons_of_mem p hq))]

/-- The text of the fresh piece `insert_range` creates is the inserted
string itself. -/
theorem pieceChars_new_source (srcs : List (List Char)) (s : List Char) :
    pieceChars (srcs ++ [s]) ⟨srcs.length, 0, s.length⟩ = s := by
  have hg : (srcs ++ [s]).getD srcs.length [] = s := by
    simp [List.getD]
  simp [pieceChars, hg]

namespace PieceTable

/-- The scan of `insert_raw_piece` succeeds whenever the index lies within
the text of a nonempty piece list. -/
theorem insert_locate_isSome :
    ∀ (ps : List Piece) (j : Nat), ps ≠ [] → j ≤ totalLen ps →
      (insert_locate ps j).isSome := by
  intro ps
  induction ps with
  | nil => intro j h _; exact absurd rfl h
  | cons p rest ih =>
    intro j _ hj
    rw [insert_locate]
    by_cases hle : j ≤ p.length
    · rw [if_pos hle]; rfl
    · rw [if_neg hle]
      have hrest : rest ≠ [] := by
        intro hr
        rw [hr] at hj
        simp only [totalLen] at hj
        omega
      have := ih (j - p.length) hrest (by simp only [totalLen] at hj; omega)
      rcases Option.isSome_iff_exists.mp this with ⟨x, hx⟩
      rw [hx]
      rfl

/-- A found splice point moves one position right when a piece is added in
front of the list. -/
theorem insert_splice_cons (p : Piece) (rest : List Piece) (j : Nat) (np : Piece)
    (h : ¬ j ≤ p.length) :
    (insert_splice (p :: rest) j np).1 = p :: (insert_splice rest (j - p.length) np).1 := by
  rw [insert_splice, insert_splice, insert_locate, if_neg h]
  cases hloc : insert_locate rest (j - p.length) with
  | none => simp
  | some r =>
    rcases r with ⟨a, b, q⟩
    simp only [Option.map_some']
    by_cases hb : b = 0
    · simp [hb, List.insertIdx_succ_cons]
    · rw [if_neg hb, if_neg hb]
      by_cases hbq : b = q.length
      · simp [hbq, List.insertIdx_succ_cons]
      · rw [if_neg hbq, if_neg hbq]
        simp [List.insertIdx_succ_cons, List.set_cons_succ]

/-- The text after the splice of `insert_raw_piece` with the fresh piece
of `insert_range` is the old text with the inserted string spliced in at
the requested index. -/
theorem insert_splice_text (srcs : List (List Char)) (s : List Char) :
    ∀ (ps : List Piece) (j : Nat),
      (∀ p ∈ ps, p.source < srcs.length ∧
        p.start + p.length ≤ (srcs.getD p.source []).length) →
      ps ≠ [] → j ≤ totalLen ps →
      textPieces (srcs ++ [s]) (insert_splice ps j ⟨srcs.length, 0, s.length⟩).1 =
        (textPieces srcs ps).take j ++ s ++ (textPieces srcs ps).drop j := by
  intro ps
  induction ps with
  | nil => intro j _ h _; exact absurd rfl h
  | cons p rest ih =>
    intro j hwf _ hj
    have hwfp := hwf p (List.mem_cons_self p rest)
    have hwfr : ∀ q ∈ rest, q.source < srcs.length ∧
        q.start + q.length ≤ (srcs.getD q.source []).length :=
      fun q hq => hwf q (List.mem_cons_of_mem p hq)
    have hsrcr : ∀ q ∈ rest, q.source < srcs.length := fun q hq => (hwfr q hq).1
    have htp : (pieceChars srcs p).length = p.length := pieceChars_length srcs p hwfp.2
    have htpp : pieceChars (srcs ++ [s]) p = pieceChars srcs p :=
      pieceChars_append_src srcs s p hwfp.1
    have htr : textPieces (srcs ++ [s]) rest = textPieces srcs rest :=
      textPieces_append_src srcs s rest hsrcr
    by_cases hle : j ≤ p.length
    · rw [insert_splice, insert_locate, if_pos hle]
      simp only
      by_cases hj0 : j = 0
      · rw [if_pos hj0, List.insertIdx_zero]
        simp only [textPieces, pieceChars_new_source, htpp, htr, hj0, List.take_zero,
          List.drop_zero, List.nil_append]
      · rw [if_neg hj0]
        by_cases hjL : j = p.length
        · rw [if_pos hjL]
          rw [show ((p :: rest).insertIdx 1 (⟨srcs.length, 0, s.length⟩ : Piece)) =
            p :: (⟨srcs.length, 0, s.length⟩ : Piece) :: rest from rfl]
          simp only [textPieces, pieceChars_new_source, htpp, htr,
            List.take_append_eq_append_take, List.drop_append_eq_append_drop, htp]
          rw [List.take_of_length_le (by omega), List.drop_of_length_le (by omega)]
          have hz : j - p.length = 0 := by omega
          rw [hz, List.take_zero, List.drop_zero, List.append_nil, List.nil_append,
            List.append_assoc]
        · rw [if_neg hjL]
          simp only [Piece.split, List.set_cons_zero]
          rw [show (((⟨p.source, p.start, j⟩ : Piece) :: rest).insertIdx 1
              (⟨srcs.length, 0, s.length⟩ : Piece)) =
            (⟨p.source, p.start, j⟩ : Piece) :: (⟨srcs.length, 0, s.length⟩ : Piece) :: rest
            from rfl]
          rw [show (((⟨p.source, p.start, j⟩ : Piece) ::
              (⟨srcs.length, 0, s.length⟩ : Piece) :: rest).insertIdx 2
              (⟨p.source, p.start + j, p.length - j⟩ : Piece)) =
            (⟨p.source, p.start, j⟩ : Piece) :: (⟨srcs.length, 0, s.length⟩ : Piece) ::
              (⟨p.source, p.start + j, p.length - j⟩ : Piece) :: rest from rfl]
          simp only [textPieces, pieceChars_new_source, htr,
            List.take_append_eq_append_take, List.drop_append_eq_append_drop, htp]
          have hleft : pieceChars (srcs ++ [s]) (⟨p.source, p.start, j⟩ : Piece) =
              (pieceChars srcs p).take j := by
            rw [pieceChars_append_src srcs s ⟨p.source, p.start, j⟩ hwfp.1,
              pieceChars_take srcs p j (by omega)]
            rfl
          have hright : pieceChars (srcs ++ [s]) (⟨p.source, p.start + j, p.length - j⟩ :
              Piece) = (pieceChars srcs p).drop j := by
            rw [pieceChars_append_src srcs s ⟨p.source, p.start + j, p.length - j⟩ hwfp.1,
              pieceChars_drop]
            rfl
          rw [hleft, hright]
          have hz : j - p.length = 0 := by omega
          rw [hz, List.take_zero, List.drop_zero, List.append_nil, List.append_assoc]
    · rw [insert_splice_cons p rest j _ hle]
      have hrest : rest ≠ [] := by
        intro hr
        rw [hr] at hj
        simp only [totalLen] at hj
        omega
      have hjr : j - p.length ≤ totalLen rest := by
        simp only [totalLen] at hj
        omega
      simp only [textPieces, htpp]
      rw [ih (j - p.length) hwfr hrest hjr]
      simp only [textPieces, List.take_append_eq_append_take,
        List.drop_append_eq_append_drop, htp]
      have ht1 : (pieceChars srcs p).take j = pieceChars srcs p :=
        List.take_of_length_le (by omega)
      have ht2 : (pieceChars srcs p).drop j = [] :=
        List.drop_of_length_le (by omega)
      rw [ht1, ht2, List.nil_append]
      simp [List.append_assoc]

end PieceTable

/-- A found index of `find_first` lies inside the list. -/
theorem find_first_lt (pred : Char → Bool) :
    ∀ (l : List Char) (m : Nat), PieceTable.find_first pred l = some m → m < l.length := by
  intro l
  induction l with
  | nil => intro m h; exact absurd h (by simp [PieceTable.find_first])
  | cons c cs ih =>
    intro m h
    rw [PieceTable.find_first] at h
    by_cases hp : pred c
    · rw [if_pos hp] at h
      cases h
      simp
    · rw [if_neg hp] at h
      cases hfind : PieceTable.find_first pred cs with
      | none => rw [hfind] at h; exact absurd h (by simp)
      | some r =>
        rw [hfind] at h
        cases h
        have := ih r hfind
        simp only [List.length_cons]
        omega

namespace PieceTable

/-- A found index of the `index_of_pred` loop lies before the end of the
remaining text. -/
theorem index_of_loop_lt (srcs : List (List Char)) (pred : Char → Bool) :
    ∀ (ps : List Piece) (start gi m : Nat),
      index_of_loop srcs pred ps start gi = some m → m < gi + totalLen ps := by
  intro ps
  induction ps with
  | nil => intro start gi m h; exact absurd h (by simp [index_of_loop])
  | cons p rest ih =>
    intro start gi m h
    rw [index_of_loop] at h
    by_cases h1 : gi + p.length ≤ start
    · rw [if_pos h1] at h
      have := ih start (gi + p.length) m h
      simp only [totalLen]
      omega
    · rw [if_neg h1] at h
      simp only at h
      set ssip := if gi ≤ start ∧ start < gi + p.length then start - gi else 0 with hssip
      have hss : ssip < p.length ∨ (ssip = 0 ∧ 0 < p.length) ∨ (ssip = 0 ∧ p.length = 0) := by
        rw [hssip]
        split_ifs with hin
        · left; omega
        · right
          omega
      cases hfind : find_first pred
          (((srcs.getD p.source []).drop (p.start + ssip)).take (p.length - ssip)) with
      | none =>
        rw [hfind] at h
        have := ih start (gi + p.length) m h
        simp only [totalLen]
        omega
      | some r =>
        rw [hfind] at h
        cases h
        have hr := find_first_lt pred _ r hfind
        rw [List.length_take] at hr
        simp only [totalLen]
        omega

/-- A found index of `index_of_pred` lies inside the text. -/
theorem index_of_pred_lt (pt : PieceTable) (pred : Char → Bool) (start m : Nat)
    (h : pt.index_of_pred pred start = some m) : m < pt.len := by
  have := index_of_loop_lt pt.sources pred pt.pieces start 0 m h
  rw [len]
  omega

/-- `insert_range` splices the inserted string into the text at the
requested index. -/
theorem insert_range_text (pt : PieceTable) (s : List Char) (i : Nat)
    (hwf : pt.wf) (hne : pt.pieces ≠ []) (hi : i ≤ pt.len) :
    (pt.insert_range s i).text = ((pt.text).take i) ++ s ++ ((pt.text).drop i) := by
  by_cases hs : s.length = 0
  · have hsnil : s = [] := List.length_eq_zero.mp hs
    rw [insert_range, if_pos hs, hsnil, List.append_nil]
    exact (List.take_append_drop i pt.text).symm
  · rw [insert_range, if_neg hs]
    show textPieces (pt.sources ++ [s])
        (insert_splice pt.pieces i ⟨pt.sources.length, 0, s.length⟩).1 = _
    exact insert_splice_text pt.sources s pt.pieces i hwf hne hi

end PieceTable

/-- The start of the line after any position is still within the text. -/
theorem next_line_index_le (b : Buffer) (at_ : Nat) :
    b.next_line_index at_ ≤ b.text.len := by
  rw [Buffer.next_line_index]
  cases hfind : b.text.index_of '\n' at_ with
  | none => simp
  | some m =>
    have := PieceTable.index_of_pred_lt b.text _ at_ m hfind
    simp only [Option.map_some', Option.getD_some]
    omega

/-- Claim C6: executing `Put{source_register := r}` on any buffer state
inserts the register's text at the start of the line after the current
line when its last character is a newline, and at the cursor index
otherwise; a missing register fails with `EmptyRegister r` and leaves the
state — in particular the buffer text — untouched. -/
theorem execute_put_spec (st : PutState) (r : Char) (clear : Bool)
    (hwf : st.buf.text.wf) (hne : st.buf.text.pieces ≠ [])
    (hc : st.buf.cursor_index ≤ st.buf.text.len) :
    (st.registers r = none →
      Command.execute_put st r clear = (st, some (Error.EmptyRegister r))) ∧
    (∀ src, st.registers r = some src →
      (Command.execute_put st r clear).2 = none ∧
      ((Command.execute_put st r clear).1.buf.text.text =
        (st.buf.text.text.take (if src.getLast? = some '\n'
            then st.buf.next_line_index st.buf.cursor_index
            else st.buf.cursor_index)) ++ src ++
        (st.buf.text.text.drop (if src.getLast? = some '\n'
            then st.buf.next_line_index st.buf.cursor_index
            else st.buf.cursor_index)))) := by
  constructor
  · intro h
    rw [Command.execute_put, h]
  · intro src h
    rw [Command.execute_put, h]
    refine ⟨rfl, ?_⟩
    have hip : (if src.getLast? = some '\n'
        then st.buf.next_line_index st.buf.cursor_index
        else st.buf.cursor_index) ≤ st.buf.text.len := by
      split_ifs
      · exact next_line_index_le st.buf st.buf.cursor_index
      · exact hc
    exact PieceTable.insert_range_text st.buf.text src _ hwf hne hip

/-- Witness for `execute_put_spec`: a buffer "ab\ncd" with an empty
register store; putting from register 'z' fails with `EmptyRegister 'z'`
and returns the state unchanged. -/
theorem execute_put_spec_witness :
    Command.execute_put ⟨Buffer.with_text ("ab\ncd").toList, fun _ => none⟩ 'z' true =
      (⟨Buffer.with_text ("ab\ncd").toList, fun _ => none⟩,
        some (Error.EmptyRegister 'z')) :=
  (execute_put_spec ⟨Buffer.with_text ("ab\ncd").toList, fun _ => none⟩ 'z' true
    (by decide) (by decide) (by decide)).1 rfl

end PK
